import Mathlib

/-!
Verification development for `src/methods/eigen_embedding.hpp` (tapkee).

The scalar type of the source is a C `float` (`DefaultScalarType`).  We embed
it shallowly as an exact rational together with the IEEE-754 special values
`inf`, `-inf` and `NaN`: magnitudes are modelled exactly (no rounding or
overflow is modelled), while the special-value propagation rules
(`1/0 = inf`, `0*inf = NaN`, `NaN` absorbing, comparisons with `NaN` false)
follow IEEE-754, because the claims about the Gram-Schmidt loop hinge on
them.  Decimal literals of the source (`1e-4`, `1.f`) are modelled by their
decimal values.
-/

set_option maxRecDepth 40000

attribute [local semireducible] Rat.mul Rat.add Rat.inv Rat.sub

namespace Tapkee

/-- Model of a C `float` value: an exact rational or an IEEE special value. -/
inductive FS
  | fin (q : ℚ)
  | inf
  | ninf
  | nan
deriving DecidableEq, Repr

/-- IEEE negation. -/
def fneg : FS → FS
  | .fin q => .fin (-q)
  | .inf => .ninf
  | .ninf => .inf
  | .nan => .nan

/-- IEEE addition (exact on finite values). -/
def fadd : FS → FS → FS
  | .nan, _ => .nan
  | .fin a, .fin b => .fin (a + b)
  | .fin _, .inf => .inf
  | .fin _, .ninf => .ninf
  | .fin _, .nan => .nan
  | .inf, .fin _ => .inf
  | .inf, .inf => .inf
  | .inf, .ninf => .nan
  | .inf, .nan => .nan
  | .ninf, .fin _ => .ninf
  | .ninf, .inf => .nan
  | .ninf, .ninf => .ninf
  | .ninf, .nan => .nan

/-- IEEE subtraction. -/
def fsub (a b : FS) : FS := fadd a (fneg b)

/-- IEEE multiplication (exact on finite values); `0 * inf = NaN`. -/
def fmul : FS → FS → FS
  | .nan, _ => .nan
  | .fin a, .fin b => .fin (a * b)
  | .fin a, .inf => if 0 < a then .inf else if a < 0 then .ninf else .nan
  | .fin a, .ninf => if 0 < a then .ninf else if a < 0 then .inf else .nan
  | .fin _, .nan => .nan
  | .inf, .fin a => if 0 < a then .inf else if a < 0 then .ninf else .nan
  | .inf, .inf => .inf
  | .inf, .ninf => .ninf
  | .inf, .nan => .nan
  | .ninf, .fin a => if 0 < a then .ninf else if a < 0 then .inf else .nan
  | .ninf, .inf => .ninf
  | .ninf, .ninf => .inf
  | .ninf, .nan => .nan

/-- IEEE division; `x/0 = ±inf` for `x ≠ 0`, `0/0 = NaN`. -/
def fdiv : FS → FS → FS
  | .nan, _ => .nan
  | .fin a, .fin b =>
      if b = 0 then (if a = 0 then .nan else if 0 < a then .inf else .ninf)
      else .fin (a / b)
  | .fin _, .inf => .fin 0
  | .fin _, .ninf => .fin 0
  | .fin _, .nan => .nan
  | .inf, .fin b => if b < 0 then .ninf else .inf
  | .inf, .inf => .nan
  | .inf, .ninf => .nan
  | .inf, .nan => .nan
  | .ninf, .fin b => if b < 0 then .inf else .ninf
  | .ninf, .inf => .nan
  | .ninf, .ninf => .nan
  | .ninf, .nan => .nan

/-- Newton iteration for the integer square root, with an explicit fuel
argument so the recursion is structural. -/
def sqrtFuel : ℕ → ℕ → ℕ → ℕ
  | 0, _, g => g
  | f + 1, n, g =>
      let next := (g + n / g) / 2
      if next < g then sqrtFuel f n next else g

/-- Integer (floor) square root. -/
def isqrt (n : ℕ) : ℕ := if n ≤ 1 then n else sqrtFuel n n (n / 2)

/-- Rational square root helper: exact whenever the numerator and denominator
are perfect squares (the only case the proofs rely on is `ratSqrt 0 = 0`;
witnesses use perfect-square inputs where the value is exact). -/
def ratSqrt (q : ℚ) : ℚ := (isqrt q.num.toNat : ℚ) / (isqrt q.den : ℚ)

/-- IEEE square root: `sqrt` of a negative number is `NaN`; `sqrt 0 = 0`. -/
def fsqrt : FS → FS
  | .fin q => if q < 0 then .nan else .fin (ratSqrt q)
  | .inf => .inf
  | .ninf => .nan
  | .nan => .nan

/-- IEEE `<` comparison: any comparison involving `NaN` is false. -/
def flt : FS → FS → Bool
  | .nan, _ => false
  | .fin a, .fin b => decide (a < b)
  | .fin _, .inf => true
  | .fin _, .ninf => false
  | .fin _, .nan => false
  | .inf, .fin _ => false
  | .inf, .inf => false
  | .inf, .ninf => false
  | .inf, .nan => false
  | .ninf, .fin _ => true
  | .ninf, .inf => true
  | .ninf, .ninf => false
  | .ninf, .nan => false

/-- Is the value finite (an ordinary number)? -/
def isFin : FS → Bool
  | .fin _ => true
  | _ => false

/-- A column of a dense matrix (Eigen `DenseMatrix` column). -/
abbrev Col := List FS

/-- A dense matrix, stored as its list of columns (the source accesses the
Gram-Schmidt working matrix `Y` exclusively through `Y.col(i)`). -/
abbrev Mat := List Col

/-- Eigen `x.dot(y)`: sum of the products of corresponding entries. -/
def fdot (x y : Col) : FS := (List.zipWith fmul x y).foldl fadd (FS.fin 0)

/-- Eigen `x.norm()`: square root of the sum of squares. -/
def fnorm (x : Col) : FS := fsqrt ((x.map (fun a => fmul a a)).foldl fadd (FS.fin 0))

/-- Column `i` of a matrix (`Y.col(i)`); a column past the end is empty. -/
def colD : Mat → ℕ → Col
  | [], _ => []
  | c :: _, 0 => c
  | _ :: Y, i + 1 => colD Y i

/-- Overwrite column `i` of a matrix. -/
def setCol : Mat → ℕ → Col → Mat
  | [], _, _ => []
  | _ :: Y, 0, c => c :: Y
  | c0 :: Y, i + 1, c => c0 :: setCol Y i c

/-- Replace every entry of a column by `0.0f` (`col.setZero()`). -/
def vzero (x : Col) : Col := x.map (fun _ => FS.fin 0)

/-- Scale a column entrywise (`Y.col(i) *= s`). -/
def vscale (s : FS) (x : Col) : Col := x.map (fun a => fmul a s)

/-- One projection update of the source: `Y.col(i) -= r * Y.col(j)` with
`r = Y.col(i).dot(Y.col(j))`. -/
def vsubProj (x y : Col) : Col :=
  let r := fdot x y
  List.zipWith (fun a b => fsub a (fmul r b)) x y

/-- `for (int k = i; k < Y.cols(); k++) Y.col(k).setZero();` -/
def zeroFrom : Mat → ℕ → Mat
  | [], _ => []
  | c :: Y, 0 => vzero c :: zeroFrom Y 0
  | c :: Y, i + 1 => c :: zeroFrom Y i

/-- The tolerance `1e-4` of the source. -/
def eps : FS := FS.fin (1 / 10000)

/-- The value of column `i` after the inner projection loop
(`for j in [0, i): Y.col(i) -= (Y.col(i).dot(Y.col(j))) * Y.col(j)`); the
columns `j < i` read by the loop are not modified by it, so the fold only
threads the running column `i`. -/
def projResidual (Y : Mat) (i : ℕ) : Col :=
  (List.range i).foldl (fun acc j => vsubProj acc (colD Y j)) (colD Y i)

/-- The matrix state after the in-place projection of column `i` (which then
holds its residual) and the conditional zeroing of columns `i..` when the
residual norm is below `1e-4` (source lines 111-121). -/
def mgsMid (Y : Mat) (i : ℕ) : Mat :=
  if flt (fnorm (projResidual Y i)) eps
  then zeroFrom (setCol Y i (projResidual Y i)) i
  else setCol Y i (projResidual Y i)

/-- One iteration of the orthonormalization loop body (source lines 109-123):
project column `i` against the previous columns, measure its norm, zero out
columns `i..` when the norm is below `1e-4`, and unconditionally execute
`Y.col(i) *= (1.f / norm)` (source line 122). -/
def mgsIter (Y : Mat) (i : ℕ) : Mat :=
  setCol (mgsMid Y i) i
    (vscale (fdiv (FS.fin 1) (fnorm (projResidual Y i))) (colD (mgsMid Y i) i))

/-- Iterate `mgsIter` for `fuel` further columns starting at column `i`. -/
def mgsAux : ℕ → ℕ → Mat → Mat
  | 0, _, Y => Y
  | fuel + 1, i, Y => mgsAux fuel (i + 1) (mgsIter Y i)

/-- The full orthonormalization pass of the randomized strategy
(`for i in [0, Y.cols())`). -/
def mgs (Y : Mat) : Mat := mgsAux Y.length 0 Y

/-- The state of the pass after the first `k` iterations. -/
def mgsUpTo (Y : Mat) (k : ℕ) : Mat := mgsAux k 0 Y

/-- Every entry of the column is finite. -/
def allFin (c : Col) : Prop := ∀ x ∈ c, isFin x = true

/-- Every entry of the column is (positive) zero. -/
def allZero (c : Col) : Prop := ∀ x ∈ c, x = FS.fin 0

/-- Every entry of the column is `NaN`. -/
def allNan (c : Col) : Prop := ∀ x ∈ c, x = FS.nan

instance (c : Col) : Decidable (allFin c) := List.decidableBAll _ c

instance (c : Col) : Decidable (allZero c) := List.decidableBAll _ c

instance (c : Col) : Decidable (allNan c) := List.decidableBAll _ c

/-- `RAND_MAX` of the target platform (glibc: `2^31 - 1`). -/
def RANDMAXN : ℕ := 2147483647

/-- The uniform variate `(rand()+1.f)/((float)RAND_MAX+2.f)` computed from a
raw generator value `r`, modelled in exact arithmetic. -/
def unif (r : ℕ) : ℚ := ((r : ℚ) + 1) / ((RANDMAXN : ℚ) + 2)

/-- A Box-Muller sample as the source produces it: either the cosine branch
`len*cos(2*pi*u2)` or the sine branch `len*sin(2*pi*u2)`, with
`len = sqrt(-2*log(u1))`, recorded symbolically by its two uniform inputs. -/
inductive Sample
  | cosBM (u1 u2 : ℚ)
  | sinBM (u1 u2 : ℚ)
deriving DecidableEq, Repr

/-- The uniform input `u1` (argument of the logarithm) of a sample. -/
def u1Of : Sample → ℚ
  | .cosBM a _ => a
  | .sinBM a _ => a

/-- Is the sample a sine-branch sample? -/
def isSinB : Sample → Bool
  | .sinBM _ _ => true
  | _ => false

/-- One row of the probe matrix `O` (source lines 87-105): the inner loop
fills columns in pairs `(cos, sin)` from two fresh uniform draws while
`j+1 < cols`, and a leftover odd column receives only the cosine term (also
from two fresh draws).  `g` is the raw `rand()` stream and `t` the position
in it. -/
def rowSamples (g : ℕ → ℕ) : ℕ → ℕ → List Sample
  | t, 0 => []
  | t, 1 => [.cosBM (unif (g t)) (unif (g (t + 1)))]
  | t, m + 2 =>
      .cosBM (unif (g t)) (unif (g (t + 1))) ::
      .sinBM (unif (g t)) (unif (g (t + 1))) :: rowSamples g (t + 2) m

/-- Number of `rand()` draws one row of `m` probe columns consumes. -/
def drawsFor : ℕ → ℕ
  | 0 => 0
  | 1 => 2
  | m + 2 => 2 + drawsFor m

/-- The rows of the probe matrix, outer loop over the `n` rows; returns the
rows and the final position in the `rand()` stream. -/
def genProbeRows (g : ℕ → ℕ) (m : ℕ) : ℕ → ℕ → List (List Sample) × ℕ
  | t, 0 => ([], t)
  | t, r + 1 =>
      let rest := genProbeRows g m (t + drawsFor m) r
      (rowSamples g t m :: rest.1, rest.2)

/-- Evaluate one symbolic sample given an abstract Box-Muller kernel `bm`
mapping `(u1, u2)` to the (cosine, sine) pair of normal values; the
transcendental functions of the source are kept abstract. -/
def sampleVal (bm : ℚ → ℚ → ℚ × ℚ) : Sample → FS
  | .cosBM a b => .fin (bm a b).1
  | .sinBM a b => .fin (bm a b).2

/-- The probe matrix `O` (as a list of columns) plus the final position in
the `rand()` stream. -/
def genProbeMat (bm : ℚ → ℚ → ℚ × ℚ) (g : ℕ → ℕ) (t n m : ℕ) : Mat × ℕ :=
  let rows := genProbeRows g m t n
  ((rows.1.map (fun row => row.map (sampleVal bm))).transpose, rows.2)

/-- Entrywise column addition. -/
def vadd (x y : Col) : Col := List.zipWith fadd x y

/-- Linear combination of the columns of `Y` with coefficients `v` (one
column of a matrix product `Y * V`). -/
def combo (Y : Mat) (v : Col) : Col :=
  (List.zipWith vscale v Y).foldl vadd (List.replicate (colD Y 0).length (FS.fin 0))

/-- Matrix product `Y * V`, column by column of `V`. -/
def matMulCols (Y V : Mat) : Mat := V.map (combo Y)

/-- `block(0, skip, rows, target_dimension)` on a square result: keep the
columns `[skip, skip + target_dimension)`. -/
def sliceCols (V : Mat) (s d : ℕ) : Mat := (V.drop s).take d

/-- Eigen `vec.tail(d)`: the trailing `d` entries. -/
def tailN (xs : List FS) (d : ℕ) : List FS := xs.drop (xs.length - d)

/-- The result type: `EmbeddingResult` is a (matrix, vector) pair of the
embedding feature matrix (list of columns) and the eigenvalues. -/
structure EmbeddingResult where
  vectors : Mat
  eigenvalues : List FS
deriving DecidableEq, Repr

/-- The `RANDOMIZED` strategy `embed` (source lines 82-131).  External
collaborators are parameters: `bm` the Box-Muller transcendental kernel, `g`
the raw `rand()` stream, `op` the `MatrixTypeOperation` applied to a probe
block (`operation(O)`, a function of the weight matrix), `solveQR` the
`householderQr().solve` call, and `eig` the dense self-adjoint eigensolver
returning (eigenvectors, eigenvalues).  `rng` is the current position in the
`rand()` stream; the returned eigenvalues are `eigenOfB.eigenvalues()`
without any slicing, exactly as on source line 130. -/
def embedRandomized (bm : ℚ → ℚ → ℚ × ℚ) (g : ℕ → ℕ)
    (op : Mat → Mat → Mat) (solveQR : Mat → Mat → Mat)
    (eig : Mat → Mat × List FS) (wm : Mat) (d s : ℕ) (rng : ℕ) :
    EmbeddingResult × ℕ :=
  let n := wm.length
  let m := d + s
  let pO := genProbeMat bm g rng n m
  let Y0 := op wm pO.1
  let Y := mgs Y0
  let B1 := op wm Y
  let B := solveQR Y B1
  let VL := eig B
  let emb := sliceCols (matMulCols Y VL.1) s d
  (⟨emb, VL.2⟩, pO.2)

/-- The `EIGEN_DENSE_SELFADJOINT_SOLVER` strategy `embed` (source lines
65-75): copy the weight matrix, run the dense solver `eig` on the copy
(returning all `n` eigenpairs), keep eigenvector columns
`[skip, skip + target_dimension)` and the trailing `target_dimension`
eigenvalues of the full `n`-entry spectrum.  This is the in-range value of
the slicing: Eigen's `block` and `tail` carry preconditions
(`skip + target_dimension ≤ cols`, `target_dimension ≤ size`), and
`embedDenseChecked` below models them explicitly; within range the two
agree (`embedDenseChecked_in_range`). -/
def embedDense (eig : Mat → Mat × List FS) (wm : Mat) (d s : ℕ) : EmbeddingResult :=
  let dense_wm := wm
  let VL := eig dense_wm
  ⟨sliceCols VL.1 s d, tailN VL.2 d⟩

/-- Eigen `M.block(0, s, rows, d)` on a list of columns, with its
precondition: the requested column range `[s, s + d)` must lie inside the
matrix, otherwise the call fails its `eigen_assert` (debug) or reads out of
bounds (release, undefined behavior) — modelled as `none`. -/
def blockColsOpt (V : Mat) (s d : ℕ) : Option Mat :=
  if s + d ≤ V.length then some ((V.drop s).take d) else none

/-- Eigen `vec.tail(d)` with its precondition `d ≤ size`; out of range the
call asserts or reads out of bounds — modelled as `none`. -/
def tailNOpt (xs : List FS) (d : ℕ) : Option (List FS) :=
  if d ≤ xs.length then some (xs.drop (xs.length - d)) else none

/-- The dense strategy `embed` with Eigen's slicing preconditions made
explicit: the solver runs on the copied matrix first, then the eigenvector
`block` and the eigenvalue `tail` are taken; if either slice is out of
range the program aborts in the slice (`eigen_assert` failure or undefined
behavior) — the call returns `none`, never an error value and never a
truncated result. -/
def embedDenseChecked (eig : Mat → Mat × List FS) (wm : Mat) (d s : ℕ) :
    Option EmbeddingResult :=
  let dense_wm := wm
  let VL := eig dense_wm
  match blockColsOpt VL.1 s d, tailNOpt VL.2 d with
  | some V, some L => some ⟨V, L⟩
  | _, _ => none

/-- The `ARPACK` strategy `embed` under `TAPKEE_NO_ARPACK` (source lines
49-50): a default-constructed, empty `EmbeddingResult` is returned. -/
def embedArpackDisabled (wm : Mat) (d s : ℕ) : EmbeddingResult := ⟨[], []⟩

/-- The `ARPACK` strategy `embed` with ARPACK available (source lines
52-56), given the eigenvector matrix and eigenvalue vector produced by the
external `ArpackGeneralizedSelfAdjointEigenSolver` (which is asked for
`target_dimension + skip` pairs): keep eigenvector columns
`[skip, skip + target_dimension)` and the trailing `target_dimension`
eigenvalues. -/
def embedArpack (V : Mat) (L : List FS) (d s : ℕ) : EmbeddingResult :=
  ⟨sliceCols V s d, tailN L d⟩

/-- The program state threaded through a call: the weight matrix and the
position in the process-wide `rand()` stream (the only mutable global the
module touches). -/
structure EState where
  wm : Mat
  rng : ℕ
deriving DecidableEq, Repr

/-- Modelled from the spec: the method selector
`TAPKEE_EIGEN_EMBEDDING_METHOD` is declared in `defines.hpp`, which is not
part of the sources; per the spec it is a closed enumeration
{ARPACK, RANDOMIZED, EIGEN_DENSE_SELFADJOINT_SOLVER}.  As a C++ enumeration
it is carried by an integer, so we encode the three tags as `0`, `1`, `2`
over `ℕ`, with every other integer an out-of-enumeration tag. -/
def methodARPACK : ℕ := 0

/-- Modelled from the spec: the `RANDOMIZED` tag (see `methodARPACK`). -/
def methodRANDOMIZED : ℕ := 1

/-- Modelled from the spec: the dense-solver tag (see `methodARPACK`). -/
def methodDENSE : ℕ := 2

/-- The dispatch function `eigen_embedding` (source lines 164-184): a bare
`switch` on the method tag with no validation of `target_dimension`/`skip`;
the fall-through for an unrecognized tag returns a default-constructed
`EmbeddingResult` (source line 183).  `arpackAvailable` models the
`TAPKEE_NO_ARPACK` compile-time toggle and `arpackSolver` the external
ARPACK wrapper (given the weight matrix and the requested pair count). -/
def eigen_embedding (arpackAvailable : Bool)
    (arpackSolver : Mat → ℕ → Mat × List FS)
    (bm : ℚ → ℚ → ℚ × ℚ) (g : ℕ → ℕ)
    (op : Mat → Mat → Mat) (solveQR : Mat → Mat → Mat)
    (eig : Mat → Mat × List FS)
    (method : ℕ) (st : EState) (d s : ℕ) : EmbeddingResult × EState :=
  match method with
  | 0 =>
      if arpackAvailable then
        let VL := arpackSolver st.wm (d + s)
        (embedArpack VL.1 VL.2 d s, st)
      else
        (embedArpackDisabled st.wm d s, st)
  | 1 =>
      let r := embedRandomized bm g op solveQR eig st.wm d s st.rng
      (r.1, ⟨st.wm, r.2⟩)
  | 2 => (embedDense eig st.wm d s, st)
  | _ => (⟨[], []⟩, st)

/-! Basic facts about the scalar model. -/

theorem isFin_iff {x : FS} : isFin x = true ↔ ∃ q, x = FS.fin q := by
  cases x <;> simp [isFin]

theorem fadd_nan_left (x : FS) : fadd FS.nan x = FS.nan := rfl

theorem fadd_nan_right (x : FS) : fadd x FS.nan = FS.nan := by
  cases x <;> rfl

theorem fmul_nan_right (x : FS) : fmul x FS.nan = FS.nan := by
  cases x <;> rfl

theorem fmul_nan_left (x : FS) : fmul FS.nan x = FS.nan := rfl

theorem fmul_zero_fin (q : ℚ) : fmul (FS.fin 0) (FS.fin q) = FS.fin 0 := by
  simp [fmul]

theorem fmul_zero_inf : fmul (FS.fin 0) FS.inf = FS.nan := by
  simp [fmul]

theorem fmul_fin_zero (q : ℚ) : fmul (FS.fin q) (FS.fin 0) = FS.fin 0 := by
  simp [fmul]

theorem fsub_nan_left (y : FS) : fsub FS.nan y = FS.nan := rfl

theorem fsub_zero_nan : fsub (FS.fin 0) FS.nan = FS.nan := rfl

theorem fsub_zero_zero : fsub (FS.fin 0) (FS.fin 0) = FS.fin 0 := by
  simp [fsub, fadd, fneg]

theorem fdiv_one_zero : fdiv (FS.fin 1) (FS.fin 0) = FS.inf := by
  simp [fdiv]

theorem fdiv_one_nan : fdiv (FS.fin 1) FS.nan = FS.nan := rfl

theorem fdiv_one_fin {q : ℚ} (hq : q ≠ 0) : fdiv (FS.fin 1) (FS.fin q) = FS.fin (1 / q) := by
  simp [fdiv, hq]

theorem flt_nan_left (y : FS) : flt FS.nan y = false := rfl

theorem flt_zero_eps : flt (FS.fin 0) eps = true := by decide

theorem flt_fin_eps {q : ℚ} (h : q < 1 / 10000) : flt (FS.fin q) eps = true := by
  simp only [flt, eps, decide_eq_true_eq]
  linarith

theorem ratSqrt_zero : ratSqrt 0 = 0 := by decide

theorem fsqrt_zero : fsqrt (FS.fin 0) = FS.fin 0 := by decide

theorem fsqrt_nan : fsqrt FS.nan = FS.nan := rfl

/-! Fold and pointwise lemmas for sums, dot products and norms. -/

theorem foldl_fadd_zeros : ∀ (L : List FS), (∀ a ∈ L, a = FS.fin 0) →
    L.foldl fadd (FS.fin 0) = FS.fin 0
  | [], _ => rfl
  | a :: L, h => by
      have ha : a = FS.fin 0 := h a (by simp)
      have : fadd (FS.fin 0) a = FS.fin 0 := by subst ha; simp [fadd]
      simpa [this] using foldl_fadd_zeros L (fun b hb => h b (by simp [hb]))

theorem foldl_fadd_from_nan : ∀ (L : List FS), L.foldl fadd FS.nan = FS.nan
  | [] => rfl
  | a :: L => by simpa [fadd_nan_left] using foldl_fadd_from_nan L

theorem foldl_fadd_all_nan : ∀ (L : List FS), (∀ a ∈ L, a = FS.nan) → L ≠ [] →
    L.foldl fadd (FS.fin 0) = FS.nan
  | [], _, hne => absurd rfl hne
  | a :: L, h, _ => by
      have ha : a = FS.nan := h a (by simp)
      subst ha
      simpa [fadd_nan_right] using foldl_fadd_from_nan L

theorem forall_mem_zipWith {α β γ : Type} {f : α → β → γ}
    {P : α → Prop} {Q : β → Prop} {R : γ → Prop}
    (hf : ∀ a b, P a → Q b → R (f a b)) :
    ∀ (x : List α) (y : List β), (∀ a ∈ x, P a) → (∀ b ∈ y, Q b) →
      ∀ c ∈ List.zipWith f x y, R c
  | [], _, _, _ => by simp
  | _ :: _, [], _, _ => by simp
  | a :: x, b :: y, hx, hy => by
      intro c hc
      rcases (by simpa using hc : c = f a b ∨ c ∈ List.zipWith f x y) with h | h
      · exact h ▸ hf a b (hx a (by simp)) (hy b (by simp))
      · exact forall_mem_zipWith hf x y (fun u hu => hx u (by simp [hu]))
          (fun v hv => hy v (by simp [hv])) c h

theorem fdot_zero_fin {x y : Col} (hx : allZero x) (hy : allFin y) :
    fdot x y = FS.fin 0 := by
  refine foldl_fadd_zeros _ ?_
  refine forall_mem_zipWith (P := fun a => a = FS.fin 0)
    (Q := fun b => isFin b = true) ?_ x y hx hy
  intro a b ha hb
  obtain ⟨q, rfl⟩ := isFin_iff.mp hb
  subst ha
  exact fmul_zero_fin q

theorem fdot_zero_nan {x y : Col} (hx : allZero x) (hy : allNan y)
    (hxne : x ≠ []) (hyne : y ≠ []) : fdot x y = FS.nan := by
  refine foldl_fadd_all_nan _ ?_ ?_
  · refine forall_mem_zipWith (P := fun a => a = FS.fin 0)
      (Q := fun b => b = FS.nan) ?_ x y hx hy
    intro a b ha hb
    subst ha; subst hb
    rfl
  · have hlen : (List.zipWith fmul x y).length = min x.length y.length :=
      List.length_zipWith ..
    intro hnil
    rw [hnil] at hlen
    rcases x with _ | ⟨a, x⟩
    · exact hxne rfl
    rcases y with _ | ⟨b, y⟩
    · exact hyne rfl
    simp at hlen
    omega

theorem fnorm_allZero {c : Col} (h : allZero c) : fnorm c = FS.fin 0 := by
  have hsq : ∀ a ∈ c.map (fun a => fmul a a), a = FS.fin 0 := by
    intro a ha
    obtain ⟨b, hb, rfl⟩ := List.mem_map.mp ha
    rw [h b hb]
    exact fmul_zero_fin 0
  unfold fnorm
  rw [foldl_fadd_zeros _ hsq, fsqrt_zero]

theorem fnorm_allNan {c : Col} (h : allNan c) (hne : c ≠ []) : fnorm c = FS.nan := by
  have hsq : ∀ a ∈ c.map (fun a => fmul a a), a = FS.nan := by
    intro a ha
    obtain ⟨b, hb, rfl⟩ := List.mem_map.mp ha
    rw [h b hb]
    rfl
  unfold fnorm
  rw [foldl_fadd_all_nan _ hsq (by simpa using hne), fsqrt_nan]

/-! Structural lemmas about column access and update. -/

theorem length_setCol : ∀ (Y : Mat) (i : ℕ) (c : Col), (setCol Y i c).length = Y.length
  | [], _, _ => rfl
  | _ :: Y, 0, c => rfl
  | c0 :: Y, i + 1, c => by simp [setCol, length_setCol Y i c]

theorem colD_setCol_self : ∀ (Y : Mat) (i : ℕ) (c : Col), i < Y.length →
    colD (setCol Y i c) i = c
  | [], i, c, h => absurd h (by simp)
  | _ :: Y, 0, c, _ => rfl
  | c0 :: Y, i + 1, c, h => by
      simpa [setCol, colD] using colD_setCol_self Y i c (by simpa using h)

theorem colD_setCol_ne : ∀ (Y : Mat) (i j : ℕ) (c : Col), j ≠ i →
    colD (setCol Y i c) j = colD Y j
  | [], _, _, _, _ => rfl
  | _ :: Y, 0, 0, c, h => absurd rfl h
  | _ :: Y, 0, j + 1, c, _ => rfl
  | c0 :: Y, i + 1, 0, c, _ => rfl
  | c0 :: Y, i + 1, j + 1, c, h => by
      simpa [setCol, colD] using colD_setCol_ne Y i j c (by omega)

theorem length_zeroFrom : ∀ (Y : Mat) (i : ℕ), (zeroFrom Y i).length = Y.length
  | [], _ => rfl
  | c :: Y, 0 => by simp [zeroFrom, length_zeroFrom Y 0]
  | c :: Y, i + 1 => by simp [zeroFrom, length_zeroFrom Y i]

theorem colD_zeroFrom_lt : ∀ (Y : Mat) (i j : ℕ), j < i →
    colD (zeroFrom Y i) j = colD Y j
  | [], _, _, _ => rfl
  | c :: Y, 0, j, h => absurd h (by omega)
  | c :: Y, i + 1, 0, _ => rfl
  | c :: Y, i + 1, j + 1, h => by
      simpa [zeroFrom, colD] using colD_zeroFrom_lt Y i j (by omega)

theorem colD_zeroFrom_ge : ∀ (Y : Mat) (i j : ℕ), i ≤ j → j < Y.length →
    colD (zeroFrom Y i) j = vzero (colD Y j)
  | [], _, _, _, hj => absurd hj (by simp)
  | c :: Y, 0, 0, _, _ => rfl
  | c :: Y, 0, j + 1, _, hj => by
      simpa [zeroFrom, colD] using colD_zeroFrom_ge Y 0 j (by omega) (by simpa using hj)
  | c :: Y, i + 1, 0, hi, _ => absurd hi (by omega)
  | c :: Y, i + 1, j + 1, hi, hj => by
      simpa [zeroFrom, colD] using colD_zeroFrom_ge Y i j (by omega) (by simpa using hj)

theorem length_vzero (c : Col) : (vzero c).length = c.length := by
  simp [vzero]

theorem length_vscale (s : FS) (c : Col) : (vscale s c).length = c.length := by
  simp [vscale]

theorem allZero_vzero (c : Col) : allZero (vzero c) := by
  intro x hx
  obtain ⟨b, _, rfl⟩ := List.mem_map.mp hx
  rfl

theorem allZero_vscale_fin {c : Col} (q : ℚ) (h : allZero c) :
    allZero (vscale (FS.fin q) c) := by
  intro x hx
  obtain ⟨b, hb, rfl⟩ := List.mem_map.mp hx
  rw [h b hb]
  exact fmul_zero_fin q

theorem allNan_vscale_inf {c : Col} (h : allZero c) : allNan (vscale FS.inf c) := by
  intro x hx
  obtain ⟨b, hb, rfl⟩ := List.mem_map.mp hx
  rw [h b hb]
  exact fmul_zero_inf

theorem allNan_vscale_nan (c : Col) : allNan (vscale FS.nan c) := by
  intro x hx
  obtain ⟨b, _, rfl⟩ := List.mem_map.mp hx
  exact fmul_nan_right b

/-! Lemmas about the projection step and the projection loop. -/

theorem length_vsubProj (x y : Col) : (vsubProj x y).length = min x.length y.length := by
  simp [vsubProj]

theorem allZero_vsubProj {x y : Col} (hx : allZero x) (hy : allFin y) :
    allZero (vsubProj x y) := by
  unfold vsubProj
  rw [fdot_zero_fin hx hy]
  refine forall_mem_zipWith (P := fun a => a = FS.fin 0)
    (Q := fun b => isFin b = true) ?_ x y hx hy
  intro a b ha hb
  obtain ⟨q, rfl⟩ := isFin_iff.mp hb
  subst ha
  rw [fmul_zero_fin q]
  exact fsub_zero_zero

theorem allNan_vsubProj_left {x : Col} (y : Col) (hx : allNan x) :
    allNan (vsubProj x y) := by
  unfold vsubProj
  refine forall_mem_zipWith (P := fun a => a = FS.nan)
    (Q := fun _ => True) ?_ x y hx (by simp)
  intro a b ha _
  subst ha
  exact fsub_nan_left _

theorem allNan_vsubProj_zero_nan {x y : Col} (hx : allZero x) (hy : allNan y)
    (hxne : x ≠ []) (hyne : y ≠ []) : allNan (vsubProj x y) := by
  unfold vsubProj
  rw [fdot_zero_nan hx hy hxne hyne]
  refine forall_mem_zipWith (P := fun a => a = FS.fin 0)
    (Q := fun b => b = FS.nan) ?_ x y hx hy
  intro a b ha hb
  subst ha; subst hb
  rfl

theorem foldl_proj_length (Y : Mat) : ∀ (L : List ℕ) (x : Col),
    (∀ j ∈ L, (colD Y j).length = x.length) →
    (L.foldl (fun acc j => vsubProj acc (colD Y j)) x).length = x.length
  | [], x, _ => rfl
  | j :: L, x, h => by
      have hstep : (vsubProj x (colD Y j)).length = x.length := by
        rw [length_vsubProj, h j (by simp)]
        omega
      have hrest := foldl_proj_length Y L (vsubProj x (colD Y j))
        (fun j2 hj2 => by rw [h j2 (by simp [hj2]), hstep])
      simpa [hstep] using hrest

theorem foldl_proj_zero (Y : Mat) : ∀ (L : List ℕ) (x : Col), allZero x →
    (∀ j ∈ L, allFin (colD Y j)) →
    allZero (L.foldl (fun acc j => vsubProj acc (colD Y j)) x)
  | [], x, hx, _ => hx
  | j :: L, x, hx, h => by
      have hstep : allZero (vsubProj x (colD Y j)) :=
        allZero_vsubProj hx (h j (by simp))
      simpa using foldl_proj_zero Y L _ hstep (fun j2 hj2 => h j2 (by simp [hj2]))

theorem foldl_proj_nan (Y : Mat) : ∀ (L : List ℕ) (x : Col), allNan x →
    allNan (L.foldl (fun acc j => vsubProj acc (colD Y j)) x)
  | [], x, hx => hx
  | j :: L, x, hx => by
      simpa using foldl_proj_nan Y L _ (allNan_vsubProj_left (colD Y j) hx)

theorem projResidual_length {Y : Mat} {i : ℕ} {n : ℕ}
    (hlen : ∀ j, j < Y.length → (colD Y j).length = n) (hi : i < Y.length) :
    (projResidual Y i).length = n := by
  unfold projResidual
  have h : ∀ j ∈ List.range i, (colD Y j).length = (colD Y i).length := by
    intro j hj
    have hj2 : j < i := List.mem_range.mp hj
    rw [hlen j (by omega), hlen i hi]
  rw [foldl_proj_length Y (List.range i) (colD Y i) h, hlen i hi]

theorem projResidual_allZero {Y : Mat} {k : ℕ} (hz : allZero (colD Y k))
    (hfin : ∀ j, j < k → allFin (colD Y j)) : allZero (projResidual Y k) := by
  unfold projResidual
  exact foldl_proj_zero Y (List.range k) (colD Y k) hz
    (fun j hj => hfin j (List.mem_range.mp hj))

theorem projResidual_nanBlock {Y : Mat} {k t : ℕ} (ht : t < k)
    (hz : allZero (colD Y k)) (hne : colD Y k ≠ [])
    (hfin : ∀ j, j < t → allFin (colD Y j))
    (hnanT : allNan (colD Y t)) (hneT : colD Y t ≠ [])
    (hlens : ∀ j, j < k → (colD Y j).length = (colD Y k).length) :
    allNan (projResidual Y k) := by
  unfold projResidual
  have hsplit : List.range k = List.range' 0 t ++ List.range' t (k - t) := by
    rw [List.range_eq_range']
    have h := List.range'_append 0 t (k - t) 1
    simp only [one_mul, Nat.zero_add] at h
    have h2 : k - t + t = k := by omega
    rw [h2] at h
    exact h.symm
  rw [hsplit, List.foldl_append]
  have hmem1 : ∀ j ∈ List.range' 0 t, j < t := by
    intro j hj
    have := List.mem_range'_1.mp hj
    omega
  have hzero1 : allZero ((List.range' 0 t).foldl
      (fun acc j => vsubProj acc (colD Y j)) (colD Y k)) :=
    foldl_proj_zero Y _ _ hz (fun j hj => hfin j (hmem1 j hj))
  have hlen1 : ((List.range' 0 t).foldl
      (fun acc j => vsubProj acc (colD Y j)) (colD Y k)).length = (colD Y k).length :=
    foldl_proj_length Y _ _ (fun j hj => hlens j (by have := hmem1 j hj; omega))
  have hne1 : (List.range' 0 t).foldl
      (fun acc j => vsubProj acc (colD Y j)) (colD Y k) ≠ [] := by
    intro hnil
    rw [hnil] at hlen1
    exact hne (List.length_eq_zero.mp hlen1.symm)
  have hrest : List.range' t (k - t) = t :: List.range' (t + 1) (k - t - 1) := by
    obtain ⟨c, hc⟩ : ∃ c, k - t = c + 1 := ⟨k - t - 1, by omega⟩
    rw [hc, List.range'_succ]
    simp
  rw [hrest, List.foldl_cons]
  exact foldl_proj_nan Y _ _
    (allNan_vsubProj_zero_nan hzero1 hnanT hne1 hneT)

/-! Behaviour of one orthonormalization iteration in the three situations the
claims are about. -/

theorem length_mgsIter (Y : Mat) (i : ℕ) : (mgsIter Y i).length = Y.length := by
  unfold mgsIter mgsMid
  split <;> simp [length_setCol, length_zeroFrom]

theorem colD_mgsIter_lt (Y : Mat) {i j : ℕ} (h : j < i) :
    colD (mgsIter Y i) j = colD Y j := by
  unfold mgsIter mgsMid
  split
  · rw [colD_setCol_ne _ _ _ _ (by omega), colD_zeroFrom_lt _ _ _ h,
      colD_setCol_ne _ _ _ _ (by omega)]
  · rw [colD_setCol_ne _ _ _ _ (by omega), colD_setCol_ne _ _ _ _ (by omega)]

theorem mgsIter_zeroRes (Y : Mat) (k : ℕ) (hk : k < Y.length)
    (hres : allZero (projResidual Y k)) :
    allNan (colD (mgsIter Y k) k) ∧
    (colD (mgsIter Y k) k).length = (projResidual Y k).length ∧
    (∀ j, k < j → j < Y.length → colD (mgsIter Y k) j = vzero (colD Y j)) := by
  have hnorm : fnorm (projResidual Y k) = FS.fin 0 := fnorm_allZero hres
  have hmid : mgsMid Y k = zeroFrom (setCol Y k (projResidual Y k)) k := by
    unfold mgsMid
    rw [hnorm, flt_zero_eps]
    simp
  have hmidk : colD (mgsMid Y k) k = vzero (projResidual Y k) := by
    rw [hmid, colD_zeroFrom_ge _ _ _ (le_refl k) (by rw [length_setCol]; exact hk),
      colD_setCol_self _ _ _ hk]
  have hself : colD (mgsIter Y k) k =
      vscale (fdiv (FS.fin 1) (fnorm (projResidual Y k))) (colD (mgsMid Y k) k) := by
    unfold mgsIter
    rw [colD_setCol_self]
    rw [hmid, length_zeroFrom, length_setCol]
    exact hk
  refine ⟨?_, ?_, ?_⟩
  · rw [hself, hnorm, fdiv_one_zero, hmidk]
    exact allNan_vscale_inf (allZero_vzero _)
  · rw [hself, hmidk, length_vscale, length_vzero]
  · intro j hjk hj
    unfold mgsIter
    rw [colD_setCol_ne _ _ _ _ (by omega), hmid,
      colD_zeroFrom_ge _ _ _ (by omega) (by rw [length_setCol]; exact hj),
      colD_setCol_ne _ _ _ _ (by omega)]

theorem mgsIter_nanRes (Y : Mat) (k : ℕ) (hk : k < Y.length)
    (hres : allNan (projResidual Y k)) (hne : projResidual Y k ≠ []) :
    allNan (colD (mgsIter Y k) k) ∧
    (colD (mgsIter Y k) k).length = (projResidual Y k).length ∧
    (∀ j, j ≠ k → colD (mgsIter Y k) j = colD Y j) := by
  have hnorm : fnorm (projResidual Y k) = FS.nan := fnorm_allNan hres hne
  have hmid : mgsMid Y k = setCol Y k (projResidual Y k) := by
    unfold mgsMid
    rw [hnorm]
    simp [flt_nan_left]
  have hmidk : colD (mgsMid Y k) k = projResidual Y k := by
    rw [hmid, colD_setCol_self _ _ _ hk]
  have hself : colD (mgsIter Y k) k =
      vscale (fdiv (FS.fin 1) (fnorm (projResidual Y k))) (colD (mgsMid Y k) k) := by
    unfold mgsIter
    rw [colD_setCol_self]
    rw [hmid, length_setCol]
    exact hk
  refine ⟨?_, ?_, ?_⟩
  · rw [hself, hnorm, fdiv_one_nan, hmidk]
    exact allNan_vscale_nan _
  · rw [hself, hmidk, length_vscale]
  · intro j hj
    unfold mgsIter
    rw [colD_setCol_ne _ _ _ _ hj, hmid, colD_setCol_ne _ _ _ _ hj]

theorem mgsIter_smallNorm (Y : Mat) (i : ℕ) (q : ℚ) (hi : i < Y.length)
    (hq : fnorm (projResidual Y i) = FS.fin q) (hq0 : q ≠ 0)
    (hqe : q < 1 / 10000) :
    allZero (colD (mgsIter Y i) i) ∧
    (colD (mgsIter Y i) i).length = (projResidual Y i).length ∧
    (∀ j, i < j → j < Y.length → colD (mgsIter Y i) j = vzero (colD Y j)) := by
  have hmid : mgsMid Y i = zeroFrom (setCol Y i (projResidual Y i)) i := by
    unfold mgsMid
    rw [hq, flt_fin_eps hqe]
    simp
  have hmidk : colD (mgsMid Y i) i = vzero (projResidual Y i) := by
    rw [hmid, colD_zeroFrom_ge _ _ _ (le_refl i) (by rw [length_setCol]; exact hi),
      colD_setCol_self _ _ _ hi]
  have hself : colD (mgsIter Y i) i =
      vscale (fdiv (FS.fin 1) (fnorm (projResidual Y i))) (colD (mgsMid Y i) i) := by
    unfold mgsIter
    rw [colD_setCol_self]
    rw [hmid, length_zeroFrom, length_setCol]
    exact hi
  refine ⟨?_, ?_, ?_⟩
  · rw [hself, hq, fdiv_one_fin hq0, hmidk]
    exact allZero_vscale_fin _ (allZero_vzero _)
  · rw [hself, hmidk, length_vscale, length_vzero]
  · intro j hij hj
    unfold mgsIter
    rw [colD_setCol_ne _ _ _ _ (by omega), hmid,
      colD_zeroFrom_ge _ _ _ (by omega) (by rw [length_setCol]; exact hj),
      colD_setCol_ne _ _ _ _ (by omega)]

theorem colLens_mgsIter {Y : Mat} {i n : ℕ} (hi : i < Y.length)
    (hlen : ∀ j, j < Y.length → (colD Y j).length = n) :
    ∀ j, j < Y.length → (colD (mgsIter Y i) j).length = n := by
  have hres : (projResidual Y i).length = n := projResidual_length hlen hi
  intro j hj
  rcases Nat.lt_trichotomy j i with hlt | rfl | hgt
  · rw [colD_mgsIter_lt Y hlt]
    exact hlen j hj
  · have hself : colD (mgsIter Y j) j =
        vscale (fdiv (FS.fin 1) (fnorm (projResidual Y j))) (colD (mgsMid Y j) j) := by
      unfold mgsIter
      rw [colD_setCol_self]
      unfold mgsMid
      split <;> simp [length_setCol, length_zeroFrom, hj]
    rw [hself, length_vscale]
    unfold mgsMid
    split
    · rw [colD_zeroFrom_ge _ _ _ (le_refl j) (by rw [length_setCol]; exact hj),
        colD_setCol_self _ _ _ hj, length_vzero]
      exact hres
    · rw [colD_setCol_self _ _ _ hj]
      exact hres
  · unfold mgsIter
    rw [colD_setCol_ne _ _ _ _ (by omega)]
    unfold mgsMid
    split
    · rw [colD_zeroFrom_ge _ _ _ (by omega) (by rw [length_setCol]; exact hj),
        colD_setCol_ne _ _ _ _ (by omega), length_vzero]
      exact hlen j hj
    · rw [colD_setCol_ne _ _ _ _ (by omega)]
      exact hlen j hj

/-! The outer loop: frame, length and composition lemmas. -/

theorem length_mgsAux : ∀ (fuel k : ℕ) (Y : Mat), (mgsAux fuel k Y).length = Y.length
  | 0, _, _ => rfl
  | fuel + 1, k, Y => by
      rw [mgsAux, length_mgsAux fuel (k + 1) (mgsIter Y k), length_mgsIter]

theorem colD_mgsAux_lt : ∀ (fuel k : ℕ) (Y : Mat) (j : ℕ), j < k →
    colD (mgsAux fuel k Y) j = colD Y j
  | 0, _, _, _, _ => rfl
  | fuel + 1, k, Y, j, h => by
      rw [mgsAux, colD_mgsAux_lt fuel (k + 1) (mgsIter Y k) j (by omega),
        colD_mgsIter_lt Y h]

theorem mgsAux_add : ∀ (a b k : ℕ) (Y : Mat),
    mgsAux (a + b) k Y = mgsAux b (k + a) (mgsAux a k Y)
  | 0, b, k, Y => by simp [mgsAux]
  | a + 1, b, k, Y => by
      have h1 : a + 1 + b = (a + b) + 1 := by omega
      rw [h1, mgsAux, mgsAux_add a b (k + 1) (mgsIter Y k), mgsAux]
      congr 1
      omega

theorem colLens_mgsAux : ∀ (fuel k : ℕ) (Y : Mat) (n : ℕ), k + fuel ≤ Y.length →
    (∀ j, j < Y.length → (colD Y j).length = n) →
    ∀ j, j < Y.length → (colD (mgsAux fuel k Y) j).length = n
  | 0, _, _, _, _, h, j, hj => h j hj
  | fuel + 1, k, Y, n, hfuel, h, j, hj => by
      rw [mgsAux]
      have hlen : (mgsIter Y k).length = Y.length := length_mgsIter Y k
      exact colLens_mgsAux fuel (k + 1) (mgsIter Y k) n (by omega)
        (fun j2 hj2 => colLens_mgsIter (by omega) h j2 (by omega))
        j (by omega)

theorem allFin_of_allZero {c : Col} (h : allZero c) : allFin c := by
  intro x hx
  rw [h x hx]
  rfl

/-- Once some column is all-`NaN` and every later column is all-zero, the
remaining iterations turn every column from the first `NaN` one on into an
all-`NaN` column and leave the columns before it untouched. -/
theorem mgsAux_nan_block {n : ℕ} (hn : 0 < n) (t : ℕ) :
    ∀ (fuel k : ℕ) (Y : Mat), t ≤ k → k + fuel = Y.length →
    (∀ j, j < Y.length → (colD Y j).length = n) →
    (∀ j, j < t → allFin (colD Y j)) →
    (∀ j, t ≤ j → j < k → allNan (colD Y j)) →
    (∀ j, k ≤ j → j < Y.length → allZero (colD Y j)) →
    (∀ j, t ≤ j → j < Y.length → allNan (colD (mgsAux fuel k Y) j)) ∧
    (∀ j, j < t → colD (mgsAux fuel k Y) j = colD Y j)
  | 0, k, Y, ht, hfuel, _, _, hnan, _ => by
      refine ⟨fun j hj1 hj2 => hnan j hj1 (by omega), fun j _ => rfl⟩
  | fuel + 1, k, Y, ht, hfuel, hlen, hfin, hnan, hzero => by
      have hk : k < Y.length := by omega
      have hz : allZero (colD Y k) := hzero k (le_refl k) hk
      have hlenIter : (mgsIter Y k).length = Y.length := length_mgsIter Y k
      have hlens : ∀ j, j < Y.length → (colD (mgsIter Y k) j).length = n :=
        colLens_mgsIter hk hlen
      rcases Nat.eq_or_lt_of_le ht with rfl | htk
      · -- no NaN column yet: the zero residual fires the branch and the
        -- unconditional scaling by `1/0` turns column `t` into NaNs
        have hres : allZero (projResidual Y t) :=
          projResidual_allZero hz (fun j hj => hfin j hj)
        obtain ⟨ha, hb, hc⟩ := mgsIter_zeroRes Y t hk hres
        have ih := mgsAux_nan_block hn t fuel (t + 1) (mgsIter Y t)
          (by omega) (by omega)
          (fun j hj => hlens j (by omega))
          (fun j hj => by
            rw [colD_mgsIter_lt Y (by omega)]
            exact hfin j hj)
          (fun j hj1 hj2 => by
            have hjk : j = t := by omega
            subst hjk
            exact ha)
          (fun j hj1 hj2 => by
            rw [hlenIter] at hj2
            rw [hc j (by omega) hj2]
            exact allZero_vzero _)
        rw [mgsAux]
        refine ⟨fun j hj1 hj2 => ih.1 j hj1 (by omega), fun j hj => ?_⟩
        rw [ih.2 j hj, colD_mgsIter_lt Y (by omega)]
      · -- a NaN column exists below `k`: the dot products poison column `k`,
        -- the comparison with NaN is false, and scaling by `1/NaN` keeps NaN
        have hnanT : allNan (colD Y t) := hnan t (le_refl t) htk
        have hneK : colD Y k ≠ [] := by
          have := hlen k hk
          intro hnil
          rw [hnil] at this
          simp at this
          omega
        have hneT : colD Y t ≠ [] := by
          have := hlen t (by omega)
          intro hnil
          rw [hnil] at this
          simp at this
          omega
        have hres : allNan (projResidual Y k) :=
          projResidual_nanBlock htk hz hneK (fun j hj => hfin j hj) hnanT hneT
            (fun j hj => by rw [hlen j (by omega), hlen k hk])
        have hneRes : projResidual Y k ≠ [] := by
          have := projResidual_length hlen hk
          intro hnil
          rw [hnil] at this
          simp at this
          omega
        obtain ⟨ha, hb, hc⟩ := mgsIter_nanRes Y k hk hres hneRes
        have ih := mgsAux_nan_block hn t fuel (k + 1) (mgsIter Y k)
          (by omega) (by omega)
          (fun j hj => hlens j (by omega))
          (fun j hj => by
            rw [hc j (by omega)]
            exact hfin j hj)
          (fun j hj1 hj2 => by
            rcases Nat.lt_or_ge j k with hjk | hjk
            · rw [hc j (by omega)]
              exact hnan j hj1 hjk
            · have hjk2 : j = k := by omega
              subst hjk2
              exact ha)
          (fun j hj1 hj2 => by
            rw [hlenIter] at hj2
            rw [hc j (by omega)]
            exact hzero j (by omega) hj2)
        rw [mgsAux]
        refine ⟨fun j hj1 hj2 => ih.1 j hj1 (by omega), fun j hj => ?_⟩
        rw [ih.2 j hj, hc j (by omega)]

/-- Splitting the full pass at iteration `i`: run the first `i` iterations,
then iteration `i`, then the rest. -/
theorem mgs_decompose {Y : Mat} {i : ℕ} (hi : i < Y.length) :
    mgs Y = mgsAux (Y.length - (i + 1)) (i + 1) (mgsIter (mgsUpTo Y i) i) := by
  unfold mgs mgsUpTo
  have h1 : Y.length = i + (1 + (Y.length - i - 1)) := by omega
  rw [h1, mgsAux_add i (1 + (Y.length - i - 1)) 0 Y,
    mgsAux_add 1 (Y.length - i - 1) (0 + i) (mgsAux i 0 Y)]
  simp [mgsAux]
  congr 1
  omega

/-! Lemmas about the probe-row generation (Box-Muller loop). -/

theorem unif_pos (r : ℕ) : 0 < unif r := by
  unfold unif
  positivity

theorem unif_lt_one {r : ℕ} (h : r ≤ RANDMAXN) : unif r < 1 := by
  unfold unif
  rw [div_lt_one (by positivity)]
  have hc : (r : ℚ) ≤ (RANDMAXN : ℚ) := by exact_mod_cast h
  linarith

theorem mem_rowSamples_u1 (g : ℕ → ℕ) : ∀ (m t : ℕ) (x : Sample),
    x ∈ rowSamples g t m → ∃ k, u1Of x = unif (g k)
  | 0, t, x, hx => absurd hx (by simp [rowSamples])
  | 1, t, x, hx => by
      simp only [rowSamples, List.mem_singleton] at hx
      exact ⟨t, by rw [hx]; rfl⟩
  | m + 2, t, x, hx => by
      simp only [rowSamples, List.mem_cons] at hx
      rcases hx with h | h | h
      · exact ⟨t, by rw [h]; rfl⟩
      · exact ⟨t, by rw [h]; rfl⟩
      · exact mem_rowSamples_u1 g m (t + 2) x h

theorem isSinB_rowSamples (g : ℕ → ℕ) : ∀ (m t j : ℕ), j < m →
    (isSinB ((rowSamples g t m).getD j (Sample.cosBM 0 0)) = true ↔ j % 2 = 1)
  | 0, _, j, hj => absurd hj (by omega)
  | 1, t, 0, _ => by simp [rowSamples, isSinB]
  | 1, t, j + 1, hj => absurd hj (by omega)
  | m + 2, t, 0, _ => by simp [rowSamples, isSinB]
  | m + 2, t, 1, _ => by simp [rowSamples, isSinB]
  | m + 2, t, j + 2, hj => by
      have ih := isSinB_rowSamples g m (t + 2) j (by omega)
      simp only [rowSamples, List.getD_cons_succ]
      rw [ih, show (j + 2) % 2 = j % 2 from by omega]

theorem rowSamples_pair (g : ℕ → ℕ) : ∀ (j m t : ℕ), j % 2 = 0 → j + 1 < m →
    (rowSamples g t m).getD j (Sample.cosBM 0 0) =
      Sample.cosBM (unif (g (t + j))) (unif (g (t + j + 1))) ∧
    (rowSamples g t m).getD (j + 1) (Sample.cosBM 0 0) =
      Sample.sinBM (unif (g (t + j))) (unif (g (t + j + 1)))
  | 0, m, t, _, hm => by
      rcases m with _ | _ | m
      · omega
      · omega
      · simp [rowSamples]
  | 1, m, t, hpar, _ => by omega
  | j + 2, m, t, hpar, hm => by
      rcases m with _ | _ | m
      · omega
      · omega
      · have ih := rowSamples_pair g j m (t + 2) (by omega) (by omega)
        simp only [rowSamples, List.getD_cons_succ]
        rw [ih.1, ih.2, show t + 2 + j = t + (j + 2) from by omega]
        exact ⟨rfl, rfl⟩

/-! Slicing lemmas shared by the ARPACK and dense adapters. -/

theorem tailN_eq_drop {L : List FS} {d s : ℕ} (h : L.length = d + s) :
    tailN L d = L.drop s := by
  unfold tailN
  congr 1
  omega

theorem length_tailN (L : List FS) (d : ℕ) :
    (tailN L d).length = L.length - (L.length - d) := by
  simp [tailN]

theorem getD_drop {α : Type} (l : List α) (s k : ℕ) (dflt : α) :
    (l.drop s).getD k dflt = l.getD (s + k) dflt := by
  rw [List.getD_eq_getElem?_getD, List.getD_eq_getElem?_getD, List.getElem?_drop]

theorem getD_take {α : Type} (l : List α) (d k : ℕ) (hk : k < d) (dflt : α) :
    (l.take d).getD k dflt = l.getD k dflt := by
  rw [List.getD_eq_getElem?_getD, List.getD_eq_getElem?_getD,
    List.getElem?_take, if_pos hk]

/-- Within Eigen's slicing preconditions the checked dense strategy agrees
with `embedDense`: the unchecked model is exact in range. -/
theorem embedDenseChecked_in_range (eig : Mat → Mat × List FS) (wm : Mat)
    (d s : ℕ) (hV : (eig wm).1.length = wm.length)
    (hL : (eig wm).2.length = wm.length) (h : s + d ≤ wm.length) :
    embedDenseChecked eig wm d s = some (embedDense eig wm d s) := by
  have hb : blockColsOpt (eig wm).1 s d = some (sliceCols (eig wm).1 s d) := by
    unfold blockColsOpt sliceCols
    rw [if_pos (by rw [hV]; omega)]
  have ht : tailNOpt (eig wm).2 d = some (tailN (eig wm).2 d) := by
    unfold tailNOpt tailN
    rw [if_pos (by rw [hL]; omega)]
  show (match blockColsOpt (eig wm).1 s d, tailNOpt (eig wm).2 d with
    | some V, some L => some (EmbeddingResult.mk V L)
    | _, _ => none) = some (embedDense eig wm d s)
  rw [hb, ht]
  rfl

/-! The claims. -/

/-- C1: the claim says the randomized strategy returns exactly
`target_dimension` eigenvalues, namely the trailing `target_dimension` of the
`d + s` eigenvalues of the Rayleigh quotient matrix `B`, index-aligned with
the returned eigenvector columns.  The code (source line 130) returns
`eigenOfB.eigenvalues()` unsliced: evaluated at `d = 1`, `s = 1` on a 2x2
weight matrix with a solver returning eigenvalues `[3, 7]`, the result
carries both eigenvalues, not the trailing one. -/
theorem randomized_returns_unsliced_eigenvalues :
    (embedRandomized (fun _ _ => ((0 : ℚ), (0 : ℚ))) (fun _ => 0) (fun _ X => X)
        (fun _ B1 => B1) (fun B => (B, [FS.fin 3, FS.fin 7]))
        [[FS.fin 1, FS.fin 0], [FS.fin 0, FS.fin 1]] 1 1 0).1.eigenvalues
      = [FS.fin 3, FS.fin 7] ∧
    tailN [FS.fin 3, FS.fin 7] 1 = [FS.fin 7] ∧
    ([FS.fin 3, FS.fin 7] : List FS) ≠ [FS.fin 7] := by decide

/-- C2: the claim says the dense strategy returns the eigenvalues at
positions `[skip, skip + target_dimension)` of the ascending spectrum,
index-aligned with the returned eigenvectors.  The code slices eigenvector
columns `[s, s+d)` but takes `eigenvalues().tail(d)`, i.e. positions
`[n-d, n)`: at `n = 3`, `d = 1`, `s = 0` with spectrum `[1, 2, 3]` the
returned eigenvector is the column for eigenvalue `1` while the returned
eigenvalue is `3`. -/
theorem dense_eigenvalue_slice_misaligned :
    (embedDense
        (fun _ => ([[FS.fin 1, FS.fin 0, FS.fin 0], [FS.fin 0, FS.fin 1, FS.fin 0],
          [FS.fin 0, FS.fin 0, FS.fin 1]], [FS.fin 1, FS.fin 2, FS.fin 3]))
        [[FS.fin 1, FS.fin 0, FS.fin 0], [FS.fin 0, FS.fin 1, FS.fin 0],
          [FS.fin 0, FS.fin 0, FS.fin 1]] 1 0).eigenvalues = [FS.fin 3] ∧
    (embedDense
        (fun _ => ([[FS.fin 1, FS.fin 0, FS.fin 0], [FS.fin 0, FS.fin 1, FS.fin 0],
          [FS.fin 0, FS.fin 0, FS.fin 1]], [FS.fin 1, FS.fin 2, FS.fin 3]))
        [[FS.fin 1, FS.fin 0, FS.fin 0], [FS.fin 0, FS.fin 1, FS.fin 0],
          [FS.fin 0, FS.fin 0, FS.fin 1]] 1 0).vectors
      = [[FS.fin 1, FS.fin 0, FS.fin 0]] ∧
    (([FS.fin 1, FS.fin 2, FS.fin 3].drop 0).take 1 : List FS) = [FS.fin 1] ∧
    FS.fin 3 ≠ FS.fin 1 := by decide

/-- C3 counterexample: on this concrete matrix the residual norm of column 0
(`1/20000`) falls below `1e-4`, so the claim says both column 0 and column 1
hold exactly the zero vector at the end of the pass; in fact column 1 ends as
`[NaN, NaN]`, altered by its own unconditional normalization by `1/0`. -/
theorem mgs_zeroed_tail_not_zero_counterexample :
    flt (fnorm (projResidual [[FS.fin (1/20000), FS.fin 0], [FS.fin 0, FS.fin 1]] 0)) eps
      = true ∧
    colD (mgs [[FS.fin (1/20000), FS.fin 0], [FS.fin 0, FS.fin 1]]) 1 ≠ [FS.fin 0, FS.fin 0] ∧
    colD (mgs [[FS.fin (1/20000), FS.fin 0], [FS.fin 0, FS.fin 1]]) 1 = [FS.nan, FS.nan] ∧
    colD (mgs [[FS.fin (1/20000), FS.fin 0], [FS.fin 0, FS.fin 1]]) 0 = [FS.fin 0, FS.fin 0]
    := by decide

/-- C3 (amended): if at column `i` the residual norm after the projections is
positive but below `1e-4` (all previous columns holding finite entries), then
at the end of the orthonormalization pass column `i` holds exactly the zero
vector, every column after `i` holds `NaN` in every entry (it is zeroed and
then altered by the unconditional scaling with `1/norm`, where the norm is
`0` or `NaN`), and the columns before `i` are not altered by iterations
`i` onwards. -/
theorem mgs_small_norm_zeroes_column_and_nans_tail
    (Y : Mat) (i n : ℕ) (q : ℚ) (hn : 0 < n) (hi : i < Y.length)
    (hlen : ∀ j, j < Y.length → (colD Y j).length = n)
    (hfin : ∀ j, j < i → allFin (colD (mgsUpTo Y i) j))
    (hq : fnorm (projResidual (mgsUpTo Y i) i) = FS.fin q)
    (hq0 : 0 < q) (hqe : q < 1 / 10000) :
    colD (mgs Y) i = List.replicate n (FS.fin 0) ∧
    (∀ j, i < j → j < Y.length → colD (mgs Y) j = List.replicate n FS.nan) ∧
    (∀ j, j < i → colD (mgs Y) j = colD (mgsUpTo Y i) j) := by
  have hleni : (mgsUpTo Y i).length = Y.length := length_mgsAux i 0 Y
  have hi2 : i < (mgsUpTo Y i).length := by omega
  have hlensYi : ∀ j, j < (mgsUpTo Y i).length → (colD (mgsUpTo Y i) j).length = n := by
    intro j hj
    exact colLens_mgsAux i 0 Y n (by omega) hlen j (by omega)
  obtain ⟨ha, hb, hc⟩ := mgsIter_smallNorm (mgsUpTo Y i) i q hi2 hq (ne_of_gt hq0) hqe
  have hlenZ : (mgsIter (mgsUpTo Y i) i).length = Y.length :=
    (length_mgsIter _ i).trans hleni
  have hlensZ : ∀ j, j < (mgsIter (mgsUpTo Y i) i).length →
      (colD (mgsIter (mgsUpTo Y i) i) j).length = n := by
    rw [length_mgsIter]
    exact colLens_mgsIter hi2 hlensYi
  have hResLen : (projResidual (mgsUpTo Y i) i).length = n :=
    projResidual_length hlensYi hi2
  have hN := mgsAux_nan_block hn (i + 1) (Y.length - (i + 1)) (i + 1)
    (mgsIter (mgsUpTo Y i) i) (le_refl _) (by omega)
    (fun j hj => hlensZ j hj)
    (fun j hj => by
      rcases Nat.lt_or_ge j i with hji | hji
      · rw [colD_mgsIter_lt _ hji]
        exact hfin j hji
      · have hje : j = i := by omega
        subst hje
        exact allFin_of_allZero ha)
    (fun j hj1 hj2 => by omega)
    (fun j hj1 hj2 => by
      rw [hlenZ] at hj2
      rw [hc j (by omega) (by omega)]
      exact allZero_vzero _)
  rw [mgs_decompose hi]
  refine ⟨?_, ?_, ?_⟩
  · rw [hN.2 i (by omega)]
    exact List.eq_replicate_iff.mpr ⟨by rw [hb, hResLen], ha⟩
  · intro j hj1 hj2
    have hnan := hN.1 j (by omega) (by omega)
    have hlenj : (colD (mgsAux (Y.length - (i + 1)) (i + 1)
        (mgsIter (mgsUpTo Y i) i)) j).length = n :=
      colLens_mgsAux _ (i + 1) _ n (by omega) hlensZ j (by omega)
    exact List.eq_replicate_iff.mpr ⟨hlenj, hnan⟩
  · intro j hj
    rw [hN.2 j (by omega), colD_mgsIter_lt _ hj]

/-- C3 witness: the amended statement instantiated on the counterexample
matrix of `mgs_zeroed_tail_not_zero_counterexample`. -/
theorem mgs_small_norm_zeroes_column_witness :
    (0 : ℕ) < 2 ∧
    (0 : ℕ) < ([[FS.fin (1/20000), FS.fin 0], [FS.fin 0, FS.fin 1]] : Mat).length ∧
    (∀ j, j < ([[FS.fin (1/20000), FS.fin 0], [FS.fin 0, FS.fin 1]] : Mat).length →
      (colD [[FS.fin (1/20000), FS.fin 0], [FS.fin 0, FS.fin 1]] j).length = 2) ∧
    fnorm (projResidual (mgsUpTo [[FS.fin (1/20000), FS.fin 0], [FS.fin 0, FS.fin 1]] 0) 0)
      = FS.fin (1/20000) ∧
    (0 : ℚ) < 1/20000 ∧ (1 : ℚ)/20000 < 1/10000 ∧
    (colD (mgs [[FS.fin (1/20000), FS.fin 0], [FS.fin 0, FS.fin 1]]) 0
        = List.replicate 2 (FS.fin 0) ∧
      (∀ j, 0 < j → j < ([[FS.fin (1/20000), FS.fin 0], [FS.fin 0, FS.fin 1]] : Mat).length →
        colD (mgs [[FS.fin (1/20000), FS.fin 0], [FS.fin 0, FS.fin 1]]) j
          = List.replicate 2 FS.nan) ∧
      (∀ j, j < 0 →
        colD (mgs [[FS.fin (1/20000), FS.fin 0], [FS.fin 0, FS.fin 1]]) j
          = colD (mgsUpTo [[FS.fin (1/20000), FS.fin 0], [FS.fin 0, FS.fin 1]] 0) j)) :=
  ⟨by decide, by decide, by decide, by decide, by decide, by decide,
    mgs_small_norm_zeroes_column_and_nans_tail
      [[FS.fin (1/20000), FS.fin 0], [FS.fin 0, FS.fin 1]] 0 2 (1/20000)
      (by decide) (by decide) (by decide) (by decide) (by decide) (by decide) (by decide)⟩

/-- C4: the scaling `Y.col(i) *= (1.f / norm)` is executed unconditionally,
also in the branch where `norm < 1e-4` has just zeroed columns `i..`; for a
column whose residual after the projections is exactly the zero vector the
norm is exactly `0`, the factor `1/0` is infinite, and `0 * inf = NaN`, so
the column ends the pass holding `NaN` in every entry rather than zero. -/
theorem mgs_zero_residual_column_becomes_nan
    (Y : Mat) (i n : ℕ) (hi : i < Y.length)
    (hlen : ∀ j, j < Y.length → (colD Y j).length = n)
    (hres : allZero (projResidual (mgsUpTo Y i) i)) :
    colD (mgs Y) i = List.replicate n FS.nan := by
  have hleni : (mgsUpTo Y i).length = Y.length := length_mgsAux i 0 Y
  have hi2 : i < (mgsUpTo Y i).length := by omega
  have hlensYi : ∀ j, j < (mgsUpTo Y i).length → (colD (mgsUpTo Y i) j).length = n := by
    intro j hj
    exact colLens_mgsAux i 0 Y n (by omega) hlen j (by omega)
  obtain ⟨ha, hb, _⟩ := mgsIter_zeroRes (mgsUpTo Y i) i hi2 hres
  have hResLen : (projResidual (mgsUpTo Y i) i).length = n :=
    projResidual_length hlensYi hi2
  rw [mgs_decompose hi, colD_mgsAux_lt _ _ _ _ (by omega)]
  exact List.eq_replicate_iff.mpr ⟨by rw [hb, hResLen], ha⟩

/-- C4 witness: with two identical columns `[3, 4]`, the residual of column 1
after projecting against the normalized column 0 is exactly the zero vector,
and column 1 of the finished pass is `[NaN, NaN]`. -/
theorem mgs_zero_residual_column_witness :
    (1 : ℕ) < ([[FS.fin 3, FS.fin 4], [FS.fin 3, FS.fin 4]] : Mat).length ∧
    (∀ j, j < ([[FS.fin 3, FS.fin 4], [FS.fin 3, FS.fin 4]] : Mat).length →
      (colD [[FS.fin 3, FS.fin 4], [FS.fin 3, FS.fin 4]] j).length = 2) ∧
    allZero (projResidual (mgsUpTo [[FS.fin 3, FS.fin 4], [FS.fin 3, FS.fin 4]] 1) 1) ∧
    colD (mgs [[FS.fin 3, FS.fin 4], [FS.fin 3, FS.fin 4]]) 1 = List.replicate 2 FS.nan :=
  ⟨by decide, by decide, by decide,
    mgs_zero_residual_column_becomes_nan [[FS.fin 3, FS.fin 4], [FS.fin 3, FS.fin 4]] 1 2
      (by decide) (by decide) (by decide)⟩

/-- C5 counterexample: the claim says a call with
`target_dimension + skip > n` is rejected with an `InvalidDimension` error
before any computation (no eigendecomposition performed).  At `n = 1`,
`d = 1`, `s = 1` the dense-tagged call is not rejected: with the dense
solver's contractual one-column output the run reaches the out-of-range
eigenvector `block` and aborts there (`none` — an `eigen_assert` failure or
undefined behavior, not an error value), while a hypothetical solver output
with two or more columns would let the very same call proceed — so the
outcome is decided by the eigendecomposition's output, which means the
eigendecomposition is performed, not skipped by a prior rejection. -/
theorem over_range_dense_aborts_counterexample :
    embedDenseChecked (fun w => (w, [FS.fin 5])) [[FS.fin 2]] 1 1 = none ∧
    embedDenseChecked (fun _ => ([[FS.fin 7], [FS.fin 8], [FS.fin 9]], [FS.fin 5]))
      [[FS.fin 2]] 1 1 ≠ none := by decide

/-- C5 (amended): the code performs no dimension validation: the parameters
are unsigned so negative values cannot arise, no check of
`target_dimension + skip ≤ n` exists, and a call with
`target_dimension + skip > n` is forwarded unchanged to the strategy (first
conjunct, with no precondition on `d` and `s`); the dense strategy then runs
the full eigendecomposition and dies at the out-of-range eigenvector `block`
(`eigen_assert` failure or undefined behavior, `none` in the checked model)
— the call is never rejected with an `InvalidDimension` error before
computation, and no error value reaches the caller. -/
theorem dispatch_forwards_and_dense_block_aborts
    (aa : Bool) (asol : Mat → ℕ → Mat × List FS) (bm : ℚ → ℚ → ℚ × ℚ)
    (g : ℕ → ℕ) (op solveQR : Mat → Mat → Mat) (eig : Mat → Mat × List FS)
    (st : EState) (d s : ℕ)
    (hV : (eig st.wm).1.length = st.wm.length)
    (h2 : st.wm.length < d + s) :
    (eigen_embedding aa asol bm g op solveQR eig 2 st d s
      = (embedDense eig st.wm d s, st)) ∧
    embedDenseChecked eig st.wm d s = none := by
  refine ⟨rfl, ?_⟩
  have hb : blockColsOpt (eig st.wm).1 s d = none := by
    unfold blockColsOpt
    rw [if_neg (by rw [hV]; omega)]
  show (match blockColsOpt (eig st.wm).1 s d, tailNOpt (eig st.wm).2 d with
    | some V, some L => some (EmbeddingResult.mk V L)
    | _, _ => none) = none
  rw [hb]

/-- C5 witness: the amended statement instantiated at `n = 1`, `d = 1`,
`s = 1`. -/
theorem dispatch_forwards_and_dense_block_aborts_witness :
    ((fun w => (w, [FS.fin 5])) ([[FS.fin 2]] : Mat)).1.length
      = ([[FS.fin 2]] : Mat).length ∧
    ([[FS.fin 2]] : Mat).length < 1 + 1 ∧
    ((eigen_embedding true (fun _ _ => ([], [])) (fun _ _ => ((0 : ℚ), (0 : ℚ)))
        (fun _ => 0) (fun _ X => X) (fun _ B => B) (fun w => (w, [FS.fin 5])) 2
        ⟨[[FS.fin 2]], 0⟩ 1 1
      = (embedDense (fun w => (w, [FS.fin 5])) [[FS.fin 2]] 1 1, ⟨[[FS.fin 2]], 0⟩)) ∧
      embedDenseChecked (fun w => (w, [FS.fin 5])) [[FS.fin 2]] 1 1 = none) :=
  ⟨by decide, by decide,
    dispatch_forwards_and_dense_block_aborts true (fun _ _ => ([], []))
      (fun _ _ => ((0 : ℚ), (0 : ℚ))) (fun _ => 0) (fun _ X => X) (fun _ B => B)
      (fun w => (w, [FS.fin 5])) ⟨[[FS.fin 2]], 0⟩ 1 1 (by decide) (by decide)⟩

/-- C6: the claim says an ARPACK-tagged call in a build without ARPACK fails
loudly with an unsupported-strategy error.  The code
(`#ifdef TAPKEE_NO_ARPACK`, source line 50) instead returns a
default-constructed, empty `EmbeddingResult`, silently — here evaluated at a
concrete input, plus the general fact that the disabled strategy returns the
empty result for every input. -/
theorem arpack_disabled_returns_empty :
    (eigen_embedding false (fun _ _ => ([[FS.fin 9]], [FS.fin 9]))
      (fun _ _ => ((0 : ℚ), (0 : ℚ))) (fun _ => 0) (fun _ X => X) (fun _ B => B)
      (fun B => (B, [])) 0 ⟨[[FS.fin 1]], 0⟩ 1 0).1 = EmbeddingResult.mk [] [] ∧
    ∀ (wm : Mat) (d s : ℕ), embedArpackDisabled wm d s = EmbeddingResult.mk [] [] :=
  ⟨by decide, fun _ _ _ => rfl⟩

/-- C7: the claim says a method tag outside the closed three-tag set is a
fatal caller error reported to the caller.  The code's `switch` falls
through (source line 183) and silently returns an empty, default-constructed
`EmbeddingResult` — here evaluated at tag `3`, plus the general fact for
every out-of-enumeration tag `k + 3`. -/
theorem unknown_method_returns_empty :
    (eigen_embedding true (fun _ _ => ([], [])) (fun _ _ => ((0 : ℚ), (0 : ℚ)))
      (fun _ => 0) (fun _ X => X) (fun _ B => B) (fun B => (B, [])) 3
      ⟨[[FS.fin 1]], 0⟩ 1 0).1 = EmbeddingResult.mk [] [] ∧
    ∀ (aa : Bool) (asol : Mat → ℕ → Mat × List FS) (bm : ℚ → ℚ → ℚ × ℚ)
      (g : ℕ → ℕ) (op solveQR : Mat → Mat → Mat) (eig : Mat → Mat × List FS)
      (k : ℕ) (st : EState) (d s : ℕ),
      eigen_embedding aa asol bm g op solveQR eig (k + 3) st d s
        = (EmbeddingResult.mk [] [], st) :=
  ⟨by decide, fun aa asol bm g op solveQR eig k st d s => rfl⟩

/-- C8: given the external ARPACK solver's output of `d + s` eigenpairs
sorted ascending, the adapter keeps eigenvector columns `[s, s + d)` and the
trailing `d` eigenvalues; since the eigenvalue vector has length `d + s`,
the trailing `d` entries are exactly positions `[s, s + d)`, so the slice
discards the first `s` pairs and returned values stay index-aligned with
returned vectors. -/
theorem arpack_adapter_slices_aligned
    (V : Mat) (L : List FS) (d s : ℕ)
    (hV : V.length = d + s) (hL : L.length = d + s)
    (hsort : List.Pairwise (fun a b => flt a b = true) L) :
    (embedArpack V L d s).eigenvalues = (L.drop s).take d ∧
    (embedArpack V L d s).vectors = (V.drop s).take d ∧
    (∀ k, k < d → (embedArpack V L d s).eigenvalues.getD k FS.nan
      = L.getD (s + k) FS.nan) ∧
    (∀ k, k < d → (embedArpack V L d s).vectors.getD k [] = V.getD (s + k) []) := by
  have he : (embedArpack V L d s).eigenvalues = tailN L d := rfl
  have hv : (embedArpack V L d s).vectors = (V.drop s).take d := rfl
  have hdrop : tailN L d = L.drop s := tailN_eq_drop hL
  have htake : (L.drop s).take d = L.drop s := by
    apply List.take_of_length_le
    rw [List.length_drop]
    omega
  refine ⟨?_, hv, ?_, ?_⟩
  · rw [he, hdrop, htake]
  · intro k hk
    rw [he, hdrop, getD_drop]
  · intro k hk
    rw [hv, getD_take _ _ _ hk, getD_drop]

/-- C8 witness: two eigenpairs, `d = 1`, `s = 1`: the adapter returns the
second pair, aligned. -/
theorem arpack_adapter_slices_witness :
    ([[FS.fin 1], [FS.fin 2]] : Mat).length = 1 + 1 ∧
    ([FS.fin 1, FS.fin 2] : List FS).length = 1 + 1 ∧
    List.Pairwise (fun a b => flt a b = true) [FS.fin 1, FS.fin 2] ∧
    ((embedArpack [[FS.fin 1], [FS.fin 2]] [FS.fin 1, FS.fin 2] 1 1).eigenvalues
        = (([FS.fin 1, FS.fin 2] : List FS).drop 1).take 1 ∧
      (embedArpack [[FS.fin 1], [FS.fin 2]] [FS.fin 1, FS.fin 2] 1 1).vectors
        = (([[FS.fin 1], [FS.fin 2]] : Mat).drop 1).take 1 ∧
      (∀ k, k < 1 → (embedArpack [[FS.fin 1], [FS.fin 2]] [FS.fin 1, FS.fin 2] 1 1).eigenvalues.getD k FS.nan
        = ([FS.fin 1, FS.fin 2] : List FS).getD (1 + k) FS.nan) ∧
      (∀ k, k < 1 → (embedArpack [[FS.fin 1], [FS.fin 2]] [FS.fin 1, FS.fin 2] 1 1).vectors.getD k []
        = ([[FS.fin 1], [FS.fin 2]] : Mat).getD (1 + k) [])) :=
  ⟨by decide, by decide, by decide,
    arpack_adapter_slices_aligned [[FS.fin 1], [FS.fin 2]] [FS.fin 1, FS.fin 2] 1 1
      (by decide) (by decide) (by decide)⟩

/-- C9: for every raw generator value `r ≤ RAND_MAX`, the uniform variate
`(r+1)/(RAND_MAX+2)` lies strictly in `(0, 1)`, so `ln u1` is finite and
negative and `-2 ln u1 > 0` (making `len = sqrt(-2 ln u1)` well defined);
moreover in each generated probe row the sine-branch samples sit exactly at
the odd column indices (each pair of columns gets the cosine and sine sample
of two fresh draws, an odd leftover column gets only the cosine term), and a
pair at even index `j` shares its two uniform draws. -/
theorem probe_uniforms_open_interval_and_pairing
    (g : ℕ → ℕ) (t m : ℕ) (hg : ∀ k, g k ≤ RANDMAXN) :
    (∀ x ∈ rowSamples g t m, 0 < u1Of x ∧ u1Of x < 1 ∧
      Real.log ((u1Of x : ℚ) : ℝ) < 0 ∧ (0 : ℝ) < -2 * Real.log ((u1Of x : ℚ) : ℝ)) ∧
    (∀ j, j < m →
      (isSinB ((rowSamples g t m).getD j (Sample.cosBM 0 0)) = true ↔ j % 2 = 1)) ∧
    (∀ j, j % 2 = 0 → j + 1 < m →
      (rowSamples g t m).getD j (Sample.cosBM 0 0) =
        Sample.cosBM (unif (g (t + j))) (unif (g (t + j + 1))) ∧
      (rowSamples g t m).getD (j + 1) (Sample.cosBM 0 0) =
        Sample.sinBM (unif (g (t + j))) (unif (g (t + j + 1)))) := by
  refine ⟨?_, fun j hj => isSinB_rowSamples g m t j hj,
    fun j hp hm => rowSamples_pair g j m t hp hm⟩
  intro x hx
  obtain ⟨k, hk⟩ := mem_rowSamples_u1 g m t x hx
  have h1 : 0 < u1Of x := hk ▸ unif_pos (g k)
  have h2 : u1Of x < 1 := hk ▸ unif_lt_one (hg k)
  have h1R : (0 : ℝ) < ((u1Of x : ℚ) : ℝ) := by exact_mod_cast h1
  have h2R : ((u1Of x : ℚ) : ℝ) < 1 := by exact_mod_cast h2
  have hlog : Real.log ((u1Of x : ℚ) : ℝ) < 0 := Real.log_neg h1R h2R
  exact ⟨h1, h2, hlog, by linarith⟩

/-- C9 witness: the constant-zero generator stream, `t = 0`, `m = 3` (one
pair plus one leftover column). -/
theorem probe_uniforms_witness :
    (∀ k : ℕ, (fun _ : ℕ => (0 : ℕ)) k ≤ RANDMAXN) ∧
    ((∀ x ∈ rowSamples (fun _ => 0) 0 3, 0 < u1Of x ∧ u1Of x < 1 ∧
      Real.log ((u1Of x : ℚ) : ℝ) < 0 ∧ (0 : ℝ) < -2 * Real.log ((u1Of x : ℚ) : ℝ)) ∧
    (∀ j, j < 3 →
      (isSinB ((rowSamples (fun _ => 0) 0 3).getD j (Sample.cosBM 0 0)) = true ↔ j % 2 = 1)) ∧
    (∀ j, j % 2 = 0 → j + 1 < 3 →
      (rowSamples (fun _ => 0) 0 3).getD j (Sample.cosBM 0 0) =
        Sample.cosBM (unif ((fun _ => 0) (0 + j))) (unif ((fun _ => 0) (0 + j + 1))) ∧
      (rowSamples (fun _ => 0) 0 3).getD (j + 1) (Sample.cosBM 0 0) =
        Sample.sinBM (unif ((fun _ => 0) (0 + j))) (unif ((fun _ => 0) (0 + j + 1))))) :=
  ⟨fun k => Nat.zero_le RANDMAXN,
    probe_uniforms_open_interval_and_pairing (fun _ => 0) 0 3
      (fun k => Nat.zero_le RANDMAXN)⟩

/-- C10: under every method tag the weight matrix component of the threaded
program state is returned unchanged: the dense strategy copies the matrix
before decomposing, the randomized strategy reads it only through the
operation and advances only the RNG position, and the ARPACK adapter only
reads it — no strategy writes to the weight matrix. -/
theorem weight_matrix_never_mutated (aa : Bool) (asol : Mat → ℕ → Mat × List FS)
    (bm : ℚ → ℚ → ℚ × ℚ) (g : ℕ → ℕ) (op solveQR : Mat → Mat → Mat)
    (eig : Mat → Mat × List FS) (method : ℕ) (st : EState) (d s : ℕ) :
    ((eigen_embedding aa asol bm g op solveQR eig method st d s).2).wm = st.wm := by
  rcases method with _ | _ | _ | k
  · cases aa <;> rfl
  · rfl
  · rfl
  · rfl

end Tapkee
